import Mathlib

/-!
Shallow embedding of `arxiv_fetcher.py` (arXiv OAI-PMH harvester).

Strings are compared, split and searched exactly as Python does: by Unicode
code point, lexicographically.  Python's built-in string operations are
embedded as structurally recursive functions on `List Char` so that every
definition evaluates inside the kernel.

The LaTeX-to-MathML converter is an external collaborator (a black-box
`String → String` function); all definitions that use it take it as the
parameter `conv`.
-/

namespace ArxivFetcher

/-! ## Python string primitives -/

/-- Lexicographic `≤` on character lists by code point: the semantics of
Python's `s <= t` (and, flipped, `s >= t`) on strings. -/
def clLe : List Char → List Char → Bool
  | [], _ => true
  | _ :: _, [] => false
  | a :: s, b :: t =>
    if a.toNat < b.toNat then true
    else if b.toNat < a.toNat then false
    else clLe s t

/-- Lexicographic `<` on character lists by code point. -/
def clLt : List Char → List Char → Bool
  | [], [] => false
  | [], _ :: _ => true
  | _ :: _, [] => false
  | a :: s, b :: t =>
    if a.toNat < b.toNat then true
    else if b.toNat < a.toNat then false
    else clLt s t

/-- Python `s <= t` on strings. -/
def strLe (s t : String) : Bool := clLe s.toList t.toList

/-- Python `s < t` on strings. -/
def strLt (s t : String) : Bool := clLt s.toList t.toList

/-- Python `pat in s` (substring containment) on character lists. -/
def hasSub (pat : List Char) : List Char → Bool
  | [] => pat.isEmpty
  | c :: rest => pat.isPrefixOf (c :: rest) || hasSub pat rest

/-- Python `pat in s` on strings: `pat` occurs as a contiguous substring of `s`. -/
def strContains (s pat : String) : Bool := hasSub pat.toList s.toList

/-- Python `s.endswith(suffix)`. -/
def strEndsWith (s suffix : String) : Bool := suffix.toList.isSuffixOf s.toList

/-- Python `s.split(sep)` for a one-character separator, on character lists.
`split` never returns an empty list: splitting the empty string yields `[[]]`. -/
def splitOnChar (sep : Char) : List Char → List (List Char)
  | [] => [[]]
  | c :: rest =>
    let r := splitOnChar sep rest
    if c == sep then [] :: r
    else
      match r with
      | h :: t => (c :: h) :: t
      | [] => [[c]]

/-- Python `s.split(sep)` for a one-character separator. -/
def pySplit (sep : Char) (s : String) : List String :=
  (splitOnChar sep s.toList).map String.mk

/-! ## Records -/

/-- One parsed `<record>` block of an OAI-PMH page, after XML decoding:
the header data plus the `oai_dc` metadata field lists.
`hasMetadata = false` models `record.find('.//oai_dc:dc') is None`.
Each metadata field is the list of its (non-empty) text occurrences,
as produced by `get_text_list`. -/
structure RawRecord where
  deleted : Bool
  setSpecs : List String
  datestamp : String
  hasMetadata : Bool
  titles : List String
  creators : List String
  subjects : List String
  descriptions : List String
  dates : List String
  identifiers : List String
deriving DecidableEq

/-- The normalized article record built by `fetch_arxiv_records`
(the `record_data` dict, lines 166-175 of `arxiv_fetcher.py`). -/
structure Rec where
  title : String
  creators : List String
  subjects : List String
  categories : List String
  description : String
  date : String
  announcement_date : String
  identifier : String
deriving DecidableEq

/-! ## Category normalization and matching -/

/-- `clean_category` (lines 118-125): split a setSpec on `:`;
three parts give `parts[1].parts[2]`, two parts give `parts[1]`,
anything else is returned unchanged. -/
def clean_category (setSpec : String) : String :=
  match pySplit ':' setSpec with
  | [_, b, c] => b ++ "." ++ c
  | [_, b] => b
  | _ => setSpec

/-- Keep the first occurrence of each string (the order in which Python's
`set` members are first seen does not matter here, because the result is
sorted afterwards). -/
def distinctAux (seen : List String) : List String → List String
  | [] => []
  | a :: l =>
    if seen.contains a then distinctAux seen l
    else a :: distinctAux (a :: seen) l

/-- Insert into an ascending-sorted string list, before the first strictly
greater element. -/
def insertAsc (a : String) : List String → List String
  | [] => [a]
  | b :: l => if strLt b a then b :: insertAsc a l else a :: b :: l

/-- Ascending insertion sort on strings. -/
def sortAsc : List String → List String
  | [] => []
  | a :: l => insertAsc a (sortAsc l)

/-- `sorted(list(set(...)))` (line 127): the distinct values in ascending
lexicographic order. -/
def categories_cleaned (setSpecs : List String) : List String :=
  sortAsc (distinctAux [] (setSpecs.map clean_category))

/-- One filter code against the record's setSpecs (lines 138-148).
A two-segment code `archive.subclass` matches a setSpec equal to
`archive:subclass` or ending in `:archive:subclass`; any other shape of code
matches when the code occurs as a substring of some setSpec. -/
def matchesCode (setSpecs : List String) (cat : String) : Bool :=
  match pySplit '.' cat with
  | [archive, subjectClass] =>
    setSpecs.any (fun s =>
      s == archive ++ ":" ++ subjectClass ||
      strEndsWith s (":" ++ archive ++ ":" ++ subjectClass))
  | _ => setSpecs.any (fun s => strContains s cat)

/-- The whole post-fetch filter (lines 136-154): a record matches when any
requested category code matches its setSpecs. -/
def matchesFilter (setSpecs : List String) (cats : List String) : Bool :=
  cats.any (matchesCode setSpecs)

/-! ## Per-record normalization -/

/-- `get_first` (lines 159-161) specialised to its call sites: first element
of the extracted text list, else the sentinel `"N/A"`. -/
def get_first (vals : List String) : String := vals.headD "N/A"

/-- The record-processing body of the harvest loop (lines 108-177):
skip deleted records, skip records without an `oai_dc` metadata block,
apply the category filter when one was given, and otherwise build the
normalized record, running title and description through the LaTeX
converter `conv`. -/
def processRecord (conv : String → String) (cats : List String)
    (r : RawRecord) : Option Rec :=
  if r.deleted then none
  else if !r.hasMetadata then none
  else if !cats.isEmpty && !matchesFilter r.setSpecs cats then none
  else some {
    title := conv (get_first r.titles)
    creators := r.creators
    subjects := r.subjects
    categories := categories_cleaned r.setSpecs
    description := conv (get_first r.descriptions)
    date := get_first r.dates
    announcement_date := r.datestamp
    identifier := get_first r.identifiers }

/-! ## Harvest loop -/

/-- A request parameter set (lines 53-64 and 181): either the initial
window request (`from`, `until`, optional `set`) or a follow-up request
carrying nothing but the resumption token. -/
inductive Params where
  | window (fromD untilD : String) (set : Option String)
  | token (t : String)
deriving DecidableEq

/-- One parsed OAI-PMH response page: an optional `<error>` element
(with its `code` attribute), the record blocks, and the text of the
`<resumptionToken>` element when present. -/
structure Page where
  error : Option String
  records : List RawRecord
  resumptionToken : Option String

/-- Line 63: the `set` parameter of the first request is the text before
the first `.` of the first requested category (`categories[0].split('.')[0]`);
no `set` parameter when no categories were requested. -/
def requestSet (categories : List String) : Option String :=
  match categories with
  | [] => none
  | c :: _ => some (String.mk ((splitOnChar '.' c.toList).headD []))

/-- The pagination loop of `fetch_arxiv_records` (lines 78-190), with the
transport abstracted: `transport p = none` models a fetch whose retries were
exhausted (terminal failure), `some page` a successfully parsed response.
Returns the record list the function returns together with the trace of
requests issued.  `fuel` bounds the number of pages and is an artifact of
totality; every theorem below supplies enough fuel for its page sequence. -/
def harvestGo (conv : String → String) (cats : List String)
    (transport : Params → Option Page) :
    Nat → Params → List Rec → List Params → List Rec × List Params
  | 0, _, acc, reqs => (acc, reqs)
  | fuel + 1, p, acc, reqs =>
    match transport p with
    | none => ([], reqs ++ [p])
    | some page =>
      if page.error.isSome then ([], reqs ++ [p])
      else
        let acc' := acc ++ page.records.filterMap (processRecord conv cats)
        match page.resumptionToken with
        | some t =>
          if t == "" then (acc', reqs ++ [p])
          else harvestGo conv cats transport fuel (Params.token t) acc' (reqs ++ [p])
        | none => (acc', reqs ++ [p])

/-- `fetch_arxiv_records(start_date, end_date, categories)` over an abstract
transport: start from the initial window request and drive the pagination
loop. -/
def fetch_arxiv_records (conv : String → String) (startStr endStr : String)
    (cats : List String) (transport : Params → Option Page) (fuel : Nat) :
    List Rec × List Params :=
  harvestGo conv cats transport fuel
    (Params.window startStr endStr (requestSet cats)) [] []

/-! ## Retrying transport -/

/-- Result of the retry loop (lines 79-93): on which 0-based attempt the
request succeeded (if it did), the backoff waits slept (in seconds, in
order), and how many attempts were made. -/
structure RetryResult where
  success : Option Nat
  waits : List Nat
  attempts : Nat
deriving DecidableEq

/-- The retry loop (lines 79-93).  `stub n = true` means the `n`-th attempt
(0-based `retry_count`) succeeds.  On failure the count is incremented; while
it is still below `maxRetries` the loop sleeps `2 ^ retry_count` seconds and
retries, otherwise it gives up.  The fuel argument equals
`maxRetries - retryCount` at every call, so it never runs out. -/
def retryGo (stub : Nat → Bool) (maxRetries : Nat) :
    Nat → Nat → RetryResult
  | _, 0 => ⟨none, [], 0⟩
  | retryCount, fuel + 1 =>
    if stub retryCount then ⟨some retryCount, [], 1⟩
    else
      let rc := retryCount + 1
      if rc < maxRetries then
        let r := retryGo stub maxRetries rc fuel
        ⟨r.success, 2 ^ rc :: r.waits, r.attempts + 1⟩
      else ⟨none, [], 1⟩

/-- One full retried request, starting from `retry_count = 0`. -/
def retryFetch (stub : Nat → Bool) (maxRetries : Nat) : RetryResult :=
  retryGo stub maxRetries 0 maxRetries

/-! ## Snapshot reconciler -/

/-- One `articles_map[key] = value` step on the insertion-ordered map
(modelled as a list of records with at most one entry per identifier):
replace the entry holding this identifier in place, else append. -/
def upsert (m : List Rec) (a : Rec) : List Rec :=
  if m.any (fun b => b.identifier == a.identifier) then
    m.map (fun b => if b.identifier == a.identifier then a else b)
  else m ++ [a]

/-- Lines 239-242: seed the map from the existing articles, then overlay
every fresh article by identifier (fresh wins), and take the values in
insertion order. -/
def buildMap (existing fresh : List Rec) : List Rec :=
  (existing ++ fresh).foldl upsert []

/-- Lines 246-248: an article survives pruning when its date is non-empty
(Python truthiness) and `date >= prune_date_str` lexicographically. -/
def keep (cutoff : String) (a : Rec) : Bool :=
  !(a.date == "") && strLe cutoff a.date

/-- Insert into a date-descending-sorted record list, after every element
with a strictly greater date (so an element inserted in front of the rest of
the original list stays in front of equal-dated elements: stability of
Python's `list.sort`). -/
def insertDesc (a : Rec) : List Rec → List Rec
  | [] => [a]
  | b :: l => if strLt a.date b.date then b :: insertDesc a l else a :: b :: l

/-- Line 251: `filtered_articles.sort(key=..., reverse=True)` — the stable
sort by date descending, embedded as stable insertion sort (any two stable
sorts for the same key agree). -/
def sortByDateDesc : List Rec → List Rec
  | [] => []
  | a :: l => insertDesc a (sortByDateDesc l)

/-- The whole reconciliation step of `__main__` (lines 239-251):
merge fresh over existing by identifier, prune dates before the cutoff,
sort by date descending. -/
def reconcile (existing fresh : List Rec) (cutoff : String) : List Rec :=
  sortByDateDesc ((buildMap existing fresh).filter (keep cutoff))

/-! ## Specification-side helpers (used only to state theorems) -/

/-- The identifiers of a record list. -/
def idsOf (m : List Rec) : List String := m.map (fun b => b.identifier)

/-- Does the list hold an entry with this identifier? -/
def hasId (m : List Rec) (x : String) : Bool :=
  m.any (fun b => b.identifier == x)

/-- The first entry with this identifier. -/
def lookupId (m : List Rec) (x : String) : Option Rec :=
  m.find? (fun b => b.identifier == x)

/-- The last record with identifier `x` in a batch: the one a Python dict
ends up holding after inserting the whole batch ("fresh wins"). -/
def lastWins (F : List Rec) (x : String) : Option Rec :=
  match F with
  | [] => none
  | f :: F' =>
    match lastWins F' x with
    | some g => some g
    | none => if f.identifier == x then some f else none

/-- Replace a record by the batch's winner for its identifier, when the
batch has one. -/
def overlay (F : List Rec) (b : Rec) : Rec :=
  (lastWins F b.identifier).getD b

/-- The part of a batch whose identifiers are new to the map `m`. -/
def newOf (m : List Rec) (F : List Rec) : List Rec :=
  F.filter (fun f => !hasId m f.identifier)

/-- A decimal digit character. -/
def isDigitC (c : Char) : Bool := 48 ≤ c.toNat && c.toNat ≤ 57

/-- An ISO-format date string `YYYY-MM-DD`: ten characters, digits except
for the two dashes. -/
def isIsoDate (s : String) : Bool :=
  match s.toList with
  | [y1, y2, y3, y4, d1, m1, m2, d2, a1, a2] =>
    isDigitC y1 && isDigitC y2 && isDigitC y3 && isDigitC y4 &&
    d1 == '-' && isDigitC m1 && isDigitC m2 &&
    d2 == '-' && isDigitC a1 && isDigitC a2
  | _ => false

end ArxivFetcher

namespace ArxivFetcher

/-! ## Order lemmas for the lexicographic comparison -/

theorem clLe_total : ∀ s t : List Char, clLe s t = true ∨ clLe t s = true
  | [], _ => Or.inl rfl
  | _ :: _, [] => Or.inr rfl
  | a :: s, b :: t => by
    rcases Nat.lt_trichotomy a.toNat b.toNat with h | h | h
    · left; simp [clLe, h]
    · simpa [clLe, h, Nat.lt_irrefl] using clLe_total s t
    · right; simp [clLe, h, Nat.lt_asymm h]

theorem clLe_trans : ∀ s t u : List Char,
    clLe s t = true → clLe t u = true → clLe s u = true
  | [], _, _, _, _ => rfl
  | _ :: _, [], _, h, _ => by simp [clLe] at h
  | _ :: _, _ :: _, [], _, h => by simp [clLe] at h
  | a :: s, b :: t, c :: u, h1, h2 => by
    simp only [clLe] at h1 h2 ⊢
    by_cases hab : a.toNat < b.toNat
    · by_cases hbc : b.toNat < c.toNat
      · have hac : a.toNat < c.toNat := by omega
        simp [hac]
      · by_cases hcb : c.toNat < b.toNat
        · rw [if_neg hbc, if_pos hcb] at h2; simp at h2
        · have hac : a.toNat < c.toNat := by omega
          simp [hac]
    · by_cases hba : b.toNat < a.toNat
      · rw [if_neg hab, if_pos hba] at h1; simp at h1
      · by_cases hbc : b.toNat < c.toNat
        · have hac : a.toNat < c.toNat := by omega
          simp [hac]
        · by_cases hcb : c.toNat < b.toNat
          · rw [if_neg hbc, if_pos hcb] at h2; simp at h2
          · have hac : ¬ a.toNat < c.toNat := by omega
            have hca : ¬ c.toNat < a.toNat := by omega
            rw [if_neg hab, if_neg hba] at h1
            rw [if_neg hbc, if_neg hcb] at h2
            rw [if_neg hac, if_neg hca]
            exact clLe_trans s t u h1 h2

theorem clLt_eq_not_clLe : ∀ s t : List Char, clLt s t = !clLe t s
  | [], [] => rfl
  | [], _ :: _ => rfl
  | _ :: _, [] => rfl
  | a :: s, b :: t => by
    rcases Nat.lt_trichotomy a.toNat b.toNat with h | h | h
    · simp [clLt, clLe, h, Nat.lt_asymm h]
    · simpa [clLt, clLe, h, Nat.lt_irrefl] using clLt_eq_not_clLe s t
    · simp [clLt, clLe, h, Nat.lt_asymm h]

theorem clLt_imp_clLe {s t : List Char} (h : clLt s t = true) : clLe s t = true := by
  rcases clLe_total s t with h' | h'
  · exact h'
  · rw [clLt_eq_not_clLe] at h
    rcases clLe_total t s with h'' | h''
    · rw [h''] at h; simp at h
    · exact h''

theorem strLe_total (s t : String) : strLe s t = true ∨ strLe t s = true :=
  clLe_total s.toList t.toList

theorem strLe_trans {s t u : String} (h1 : strLe s t = true)
    (h2 : strLe t u = true) : strLe s u = true :=
  clLe_trans s.toList t.toList u.toList h1 h2

theorem strLt_eq_not_strLe (s t : String) : strLt s t = !strLe t s :=
  clLt_eq_not_clLe s.toList t.toList

theorem strLt_false_le {s t : String} (h : strLt s t = false) :
    strLe t s = true := by
  rw [strLt_eq_not_strLe] at h
  simpa using h

theorem strLt_true_le {s t : String} (h : strLt s t = true) :
    strLe s t = true :=
  clLt_imp_clLe h

end ArxivFetcher

namespace ArxivFetcher

/-! ## Sorting lemmas -/

/-- The date-descending relation the reconciler sorts by. -/
def dateGe (a b : Rec) : Prop := strLe b.date a.date = true

theorem insertDesc_perm (a : Rec) : ∀ l : List Rec,
    (insertDesc a l).Perm (a :: l)
  | [] => List.Perm.refl _
  | b :: l => by
    unfold insertDesc
    by_cases h : strLt a.date b.date = true
    · rw [if_pos h]
      exact ((insertDesc_perm a l).cons b).trans (List.Perm.swap a b l)
    · rw [if_neg h]

theorem sortByDateDesc_perm : ∀ l : List Rec, (sortByDateDesc l).Perm l
  | [] => List.Perm.refl _
  | a :: l =>
    (insertDesc_perm a (sortByDateDesc l)).trans ((sortByDateDesc_perm l).cons a)

theorem mem_insertDesc {x a : Rec} {l : List Rec} :
    x ∈ insertDesc a l ↔ x = a ∨ x ∈ l := by
  rw [(insertDesc_perm a l).mem_iff, List.mem_cons]

theorem insertDesc_pairwise {a : Rec} : ∀ {l : List Rec},
    l.Pairwise dateGe → (insertDesc a l).Pairwise dateGe
  | [], _ => by simp [insertDesc, List.pairwise_cons]
  | b :: l, h => by
    rcases List.pairwise_cons.mp h with ⟨hb, hl⟩
    unfold insertDesc
    by_cases hab : strLt a.date b.date = true
    · rw [if_pos hab]
      refine List.pairwise_cons.mpr ⟨?_, insertDesc_pairwise hl⟩
      intro x hx
      rcases mem_insertDesc.mp hx with rfl | hx
      · exact strLt_true_le hab
      · exact hb x hx
    · rw [if_neg hab]
      have hba : strLe b.date a.date = true :=
        strLt_false_le (Bool.eq_false_iff.mpr hab)
      refine List.pairwise_cons.mpr ⟨?_, h⟩
      intro x hx
      rcases List.mem_cons.mp hx with rfl | hx
      · exact hba
      · exact strLe_trans (hb x hx) hba

theorem sortByDateDesc_pairwise : ∀ l : List Rec,
    (sortByDateDesc l).Pairwise dateGe
  | [] => List.Pairwise.nil
  | a :: l => insertDesc_pairwise (sortByDateDesc_pairwise l)

theorem insertDesc_of_le {a b : Rec} (l : List Rec)
    (h : strLe b.date a.date = true) : insertDesc a (b :: l) = a :: b :: l := by
  unfold insertDesc
  rw [if_neg]
  rw [strLt_eq_not_strLe, h]
  simp

theorem sortByDateDesc_of_pairwise : ∀ {l : List Rec},
    l.Pairwise dateGe → sortByDateDesc l = l
  | [], _ => rfl
  | a :: l, h => by
    rcases List.pairwise_cons.mp h with ⟨ha, hl⟩
    show insertDesc a (sortByDateDesc l) = a :: l
    rw [sortByDateDesc_of_pairwise hl]
    cases l with
    | nil => rfl
    | cons b l' => exact insertDesc_of_le l' (ha b (List.mem_cons_self b l'))

end ArxivFetcher

namespace ArxivFetcher

/-! ## Map lemmas: `upsert` and friends -/

/-- Replacing by a record with the same identifier does not change the
identifier. -/
theorem replace_id (a b : Rec) :
    (if b.identifier == a.identifier then a else b).identifier = b.identifier := by
  by_cases h : b.identifier = a.identifier
  · simp [h]
  · simp [h]

/-- `upsert` has only one entry with this identifier present. -/
theorem hasId_iff {m : List Rec} {x : String} :
    hasId m x = true ↔ x ∈ idsOf m := by
  simp [hasId, idsOf, List.any_eq_true, List.mem_map, beq_iff_eq]

/-- Unfolding equation for `lastWins` on a cons cell. -/
theorem lastWins_cons (f : Rec) (F' : List Rec) (x : String) :
    lastWins (f :: F') x =
      match lastWins F' x with
      | some g => some g
      | none => if f.identifier == x then some f else none := rfl

theorem idsOf_upsert (m : List Rec) (a : Rec) :
    idsOf (upsert m a) =
      if hasId m a.identifier then idsOf m else idsOf m ++ [a.identifier] := by
  unfold upsert hasId idsOf
  by_cases h : m.any (fun b => b.identifier == a.identifier)
  · rw [if_pos h, if_pos h, List.map_map]
    exact List.map_congr_left (fun b _ => replace_id a b)
  · rw [if_neg h, if_neg h, List.map_append]
    rfl

/-- A map with no-duplicate identifiers keeps that invariant under `upsert`. -/
def nodupIds (m : List Rec) : Prop := (idsOf m).Nodup

theorem nodupIds_upsert {m : List Rec} (h : nodupIds m) (a : Rec) :
    nodupIds (upsert m a) := by
  rw [nodupIds, idsOf_upsert]
  by_cases hm : hasId m a.identifier
  · rwa [if_pos hm]
  · rw [if_neg hm]
    have hnotin : a.identifier ∉ idsOf m := fun hc => hm (hasId_iff.mpr hc)
    have h' : (idsOf m).Nodup := h
    simp [List.nodup_append, h', hnotin]

theorem lookupId_upsert (m : List Rec) (a : Rec) (x : String) :
    lookupId (upsert m a) x =
      if a.identifier = x then some a else lookupId m x := by
  unfold upsert lookupId
  by_cases hm : m.any (fun b => b.identifier == a.identifier)
  · rw [if_pos hm, List.find?_map]
    have hpf : ((fun b : Rec => b.identifier == x) ∘
        (fun b => if b.identifier == a.identifier then a else b)) =
        fun b : Rec => b.identifier == x := by
      funext b
      simp only [Function.comp_apply, replace_id]
    rw [hpf]
    by_cases hx : a.identifier = x
    · subst hx
      have hsome : (m.find? (fun b => b.identifier == a.identifier)).isSome := by
        rw [List.find?_isSome]
        rcases List.any_eq_true.mp hm with ⟨b, hb, hpb⟩
        exact ⟨b, hb, hpb⟩
      rcases Option.isSome_iff_exists.mp hsome with ⟨b, hb⟩
      rw [if_pos rfl, hb]
      have hbid : b.identifier = a.identifier := by
        simpa using List.find?_some hb
      simp [Option.map, hbid]
    · rw [if_neg hx]
      cases hfind : m.find? (fun b => b.identifier == x) with
      | none => simp
      | some b =>
        have hbid : b.identifier = x := by simpa using List.find?_some hfind
        have hne : ¬ b.identifier = a.identifier := fun hc => hx (by rw [← hc, hbid])
        simp [Option.map, hne]
  · rw [if_neg hm, List.find?_append]
    by_cases hx : a.identifier = x
    · have hnone : m.find? (fun b => b.identifier == x) = none := by
        rw [List.find?_eq_none]
        intro b hb hpb
        exact hm (List.any_eq_true.mpr ⟨b, hb, by simp [beq_iff_eq] at hpb ⊢; rw [hpb, hx]⟩)
      rw [if_pos hx, hnone, Option.none_or]
      simp [List.find?, beq_iff_eq, hx]
    · rw [if_neg hx]
      have hfa : (List.find? (fun b => b.identifier == x) [a]) = none := by
        have hb : (a.identifier == x) = false := by
          simp [beq_eq_false_iff_ne, hx]
        simp [List.find?, hb]
      rw [hfa, Option.or_none]

theorem lookupId_foldl (F : List Rec) : ∀ (m : List Rec) (x : String),
    lookupId (F.foldl upsert m) x =
      match lastWins F x with
      | some g => some g
      | none => lookupId m x := by
  induction F with
  | nil => intro m x; rfl
  | cons f F' ih =>
    intro m x
    show lookupId (F'.foldl upsert (upsert m f)) x = _
    rw [ih (upsert m f) x, lastWins_cons]
    cases h : lastWins F' x with
    | some g => rfl
    | none =>
      rw [lookupId_upsert]
      by_cases hf : f.identifier = x
      · simp [hf]
      · simp [hf]

theorem nodupIds_foldl (F : List Rec) : ∀ {m : List Rec}, nodupIds m →
    nodupIds (F.foldl upsert m) := by
  induction F with
  | nil => intro m h; exact h
  | cons f F' ih => intro m h; exact ih (nodupIds_upsert h f)

theorem mem_upsert {x a : Rec} {m : List Rec} (h : x ∈ upsert m a) :
    x = a ∨ x ∈ m := by
  unfold upsert at h
  by_cases hm : m.any (fun b => b.identifier == a.identifier)
  · rw [if_pos hm] at h
    rcases List.mem_map.mp h with ⟨b, hb, hrep⟩
    by_cases hid : b.identifier = a.identifier
    · left; rw [← hrep]; simp [hid]
    · right; rw [← hrep]; simpa [hid] using hb
  · rw [if_neg hm] at h
    rcases List.mem_append.mp h with hx | hx
    · right; exact hx
    · left; simpa using hx

theorem mem_foldl_upsert {x : Rec} (F : List Rec) : ∀ {m : List Rec},
    x ∈ F.foldl upsert m → x ∈ m ∨ x ∈ F := by
  induction F with
  | nil => intro m h; exact Or.inl h
  | cons f F' ih =>
    intro m h
    rcases ih h with hm | hF
    · rcases mem_upsert hm with rfl | hm'
      · exact Or.inr (List.mem_cons_self _ _)
      · exact Or.inl hm'
    · exact Or.inr (List.mem_cons_of_mem _ hF)

theorem lookupId_of_mem_nodup : ∀ {m : List Rec} {b : Rec}, nodupIds m →
    b ∈ m → lookupId m b.identifier = some b := by
  intro m
  induction m with
  | nil => intro b _ hb; exact absurd hb (List.not_mem_nil b)
  | cons c m' ih =>
    intro b h hb
    have hids : idsOf (c :: m') = c.identifier :: idsOf m' := rfl
    rw [nodupIds, hids, List.nodup_cons] at h
    rcases List.mem_cons.mp hb with rfl | hb'
    · unfold lookupId
      simp [List.find?]
    · have hne : c.identifier ≠ b.identifier := by
        intro hc
        exact h.1 (hc ▸ List.mem_map.mpr ⟨b, hb', rfl⟩)
      unfold lookupId
      rw [List.find?_cons_of_neg _ (by simpa using hne)]
      exact ih h.2 hb'

theorem lookupId_mem {m : List Rec} {x : String} {b : Rec}
    (h : lookupId m x = some b) : b ∈ m ∧ b.identifier = x :=
  ⟨List.mem_of_find?_eq_some h, by simpa using List.find?_some h⟩

theorem lastWins_mem : ∀ {F : List Rec} {x : String} {g : Rec},
    lastWins F x = some g → g ∈ F ∧ g.identifier = x := by
  intro F
  induction F with
  | nil => intro x g h; cases h
  | cons f F' ih =>
    intro x g h
    rw [lastWins_cons] at h
    cases hW : lastWins F' x with
    | some g' =>
      rw [hW] at h
      cases h
      rcases ih hW with ⟨hmem, hid⟩
      exact ⟨List.mem_cons_of_mem _ hmem, hid⟩
    | none =>
      rw [hW] at h
      by_cases hf : f.identifier = x
      · simp only [hf, beq_self_eq_true, if_pos] at h
        cases h
        exact ⟨List.mem_cons_self _ _, hf⟩
      · simp [hf] at h

theorem lastWins_isSome_of_mem : ∀ {F : List Rec} {f : Rec},
    f ∈ F → (lastWins F f.identifier).isSome := by
  intro F
  induction F with
  | nil => intro f h; exact absurd h (List.not_mem_nil f)
  | cons g F' ih =>
    intro f h
    rw [lastWins_cons]
    cases hW : lastWins F' f.identifier with
    | some g' => rfl
    | none =>
      rcases List.mem_cons.mp h with rfl | h'
      · simp
      · have := ih h'
        rw [hW] at this
        simp at this

theorem lastWins_filter (P : Rec → Bool) : ∀ (F : List Rec) (x : String),
    (∀ g : Rec, g.identifier = x → P g = true) →
    lastWins (F.filter P) x = lastWins F x := by
  intro F
  induction F with
  | nil => intro x _; rfl
  | cons f F' ih =>
    intro x hP
    by_cases hf : P f = true
    · rw [List.filter_cons_of_pos hf, lastWins_cons, lastWins_cons, ih x hP]
    · rw [List.filter_cons_of_neg (by simpa using hf)]
      have hfx : f.identifier ≠ x := fun hc => hf (hP f hc)
      rw [ih x hP, lastWins_cons]
      cases hW : lastWins F' x with
      | some g => rfl
      | none => simp [hfx]

end ArxivFetcher

namespace ArxivFetcher

/-! ## Characterization of folding a batch into the map -/

theorem upsert_pos {m : List Rec} {a : Rec} (h : hasId m a.identifier = true) :
    upsert m a = m.map (fun b => if b.identifier == a.identifier then a else b) :=
  if_pos h

theorem upsert_neg {m : List Rec} {a : Rec} (h : hasId m a.identifier = false) :
    upsert m a = m ++ [a] :=
  if_neg (by rw [show (m.any fun b => b.identifier == a.identifier) = hasId m a.identifier from rfl, h]; simp)

theorem not_hasId_ne {m : List Rec} {x : String} (h : hasId m x = false)
    {b : Rec} (hb : b ∈ m) : b.identifier ≠ x := by
  intro hc
  have hmem : x ∈ idsOf m := List.mem_map.mpr ⟨b, hb, hc⟩
  rw [← hasId_iff, h] at hmem
  cases hmem

theorem hasId_append (m1 m2 : List Rec) (x : String) :
    hasId (m1 ++ m2) x = (hasId m1 x || hasId m2 x) :=
  List.any_append

theorem overlay_cons_ne {f b : Rec} {F' : List Rec}
    (h : f.identifier ≠ b.identifier) : overlay (f :: F') b = overlay F' b := by
  unfold overlay
  rw [lastWins_cons]
  cases hW : lastWins F' b.identifier with
  | some g => rfl
  | none => simp [h]

/-- After an in-place replacement under a shared identifier, overlaying the
tail of the batch is the same as overlaying the whole batch on the original
entry. -/
theorem overlay_replace (f b : Rec) (F' : List Rec) :
    overlay F' (if b.identifier == f.identifier then f else b) =
      overlay (f :: F') b := by
  by_cases hb : b.identifier = f.identifier
  · rw [if_pos (by simpa using hb)]
    unfold overlay
    rw [lastWins_cons, hb]
    cases hW : lastWins F' f.identifier with
    | some g => rfl
    | none => simp
  · rw [if_neg (by simpa using hb)]
    exact (overlay_cons_ne (fun hc => hb hc.symm)).symm

/-- The main characterization: folding a batch `F` into a duplicate-free map
`m` replaces each map entry by the batch's winner for its identifier and
appends, in first-occurrence order with last-wins values, the batch records
whose identifiers are new to `m`. -/
theorem foldl_upsert_char : ∀ (F m : List Rec), nodupIds m →
    F.foldl upsert m = m.map (overlay F) ++ (newOf m F).foldl upsert []
  | [], m, _ => by
    simp only [List.foldl_nil, newOf, List.filter_nil]
    have : ∀ b ∈ m, overlay [] b = b := fun b _ => rfl
    rw [List.map_congr_left this, List.map_id', List.append_nil]
  | f :: F', m, hm => by
    rw [List.foldl_cons]
    have IH1 := foldl_upsert_char F' (upsert m f) (nodupIds_upsert hm f)
    by_cases hf : hasId m f.identifier = true
    · -- the head of the batch replaces an existing entry in place
      rw [IH1]
      have hids : idsOf (upsert m f) = idsOf m := by
        rw [idsOf_upsert, if_pos hf]
      have hhas : ∀ y, hasId (upsert m f) y = hasId m y := by
        intro y
        by_cases hy : y ∈ idsOf m
        · rw [hasId_iff.symm] at hy
          have : hasId (upsert m f) y = true := by
            rw [hasId_iff, hids, ← hasId_iff]; exact hy
          rw [this, hy]
        · have h1 : hasId m y = false := by
            cases hq : hasId m y with
            | true => exact absurd (hasId_iff.mp hq) hy
            | false => rfl
          have h2 : hasId (upsert m f) y = false := by
            cases hq : hasId (upsert m f) y with
            | true =>
              rw [hasId_iff, hids] at hq
              exact absurd hq hy
            | false => rfl
          rw [h1, h2]
      have hnew : newOf (upsert m f) F' = newOf m F' := by
        unfold newOf
        exact List.filter_congr (fun g _ => by rw [hhas g.identifier])
      have hnewCons : newOf m (f :: F') = newOf m F' := by
        unfold newOf
        rw [List.filter_cons_of_neg (by simp [hf])]
      have hmap : (upsert m f).map (overlay F') = m.map (overlay (f :: F')) := by
        rw [upsert_pos hf, List.map_map]
        exact List.map_congr_left (fun b _ => overlay_replace f b F')
      rw [hnew, hnewCons, hmap]
    · -- the head of the batch has a fresh identifier and is appended
      have hf' : hasId m f.identifier = false := by
        cases hq : hasId m f.identifier with
        | true => exact absurd hq hf
        | false => rfl
      rw [IH1, upsert_neg hf']
      have hnewCons : newOf m (f :: F') =
          f :: F'.filter (fun g => !hasId m g.identifier) := by
        unfold newOf
        rw [List.filter_cons_of_pos (by simp [hf'])]
      have IH2 := foldl_upsert_char (F'.filter (fun g => !hasId m g.identifier))
        [f] (by simp [nodupIds, idsOf])
      have hG : (F'.filter (fun g => !hasId m g.identifier)).foldl upsert [f] =
          [overlay F' f] ++
            (newOf (m ++ [f]) F').foldl upsert [] := by
        rw [IH2]
        have hover : overlay (F'.filter (fun g => !hasId m g.identifier)) f =
            overlay F' f := by
          unfold overlay
          rw [lastWins_filter _ F' f.identifier
            (fun g hg => by rw [show g.identifier = f.identifier from hg, hf']; rfl)]
        have hfilters : newOf [f] (F'.filter (fun g => !hasId m g.identifier)) =
            newOf (m ++ [f]) F' := by
          unfold newOf
          rw [List.filter_filter]
          exact List.filter_congr (fun g _ => by
            rw [hasId_append]
            cases hasId m g.identifier <;> cases hasId [f] g.identifier <;> rfl)
        simp only [List.map_cons, List.map_nil]
        rw [hover, hfilters]
      have hmapF : (m ++ [f]).map (overlay F') =
          m.map (overlay (f :: F')) ++ [overlay F' f] := by
        rw [List.map_append]
        have : m.map (overlay F') = m.map (overlay (f :: F')) :=
          List.map_congr_left (fun b hb =>
            (overlay_cons_ne (fun hc => (not_hasId_ne hf' hb) hc.symm)).symm)
        rw [this]
        rfl
      rw [hnewCons, List.foldl_cons,
        show upsert [] f = [f] from rfl, hG, hmapF, List.append_assoc]
termination_by F m hm => F.length
decreasing_by
  · simp [List.length_cons]
  · exact Nat.lt_succ_of_le (List.length_filter_le _ _)

end ArxivFetcher

namespace ArxivFetcher

/-! ## Reconciler facts -/

theorem buildMap_eq (E F : List Rec) :
    buildMap E F = F.foldl upsert (E.foldl upsert []) := by
  unfold buildMap
  rw [List.foldl_append]

theorem nodupIds_nil : nodupIds [] := List.Pairwise.nil

theorem nodupIds_buildMap (E F : List Rec) : nodupIds (buildMap E F) := by
  rw [buildMap_eq]
  exact nodupIds_foldl _ (nodupIds_foldl _ nodupIds_nil)

theorem nodupIds_filter {m : List Rec} (p : Rec → Bool) (h : nodupIds m) :
    nodupIds (m.filter p) :=
  List.Nodup.sublist (List.Sublist.map _ (List.filter_sublist m)) h

theorem nodupIds_perm {m m' : List Rec} (hp : m.Perm m') (h : nodupIds m) :
    nodupIds m' :=
  ((hp.map _).nodup_iff).mp h

theorem nodupIds_reconcile (E F : List Rec) (c : String) :
    nodupIds (reconcile E F c) :=
  nodupIds_perm (sortByDateDesc_perm _).symm
    (nodupIds_filter _ (nodupIds_buildMap E F))

theorem mem_reconcile_iff {E F : List Rec} {c : String} {r : Rec} :
    r ∈ reconcile E F c ↔ r ∈ buildMap E F ∧ keep c r = true := by
  unfold reconcile
  rw [(sortByDateDesc_perm _).mem_iff, List.mem_filter]

theorem lookupId_buildMap (E F : List Rec) (x : String) :
    lookupId (buildMap E F) x =
      match lastWins F x with
      | some g => some g
      | none => lookupId (E.foldl upsert []) x := by
  rw [buildMap_eq]
  exact lookupId_foldl F (E.foldl upsert []) x

/-- Every entry of the merged map whose identifier occurs in the fresh batch
holds the batch's last record with that identifier. -/
theorem overlay_mem_buildMap {E F : List Rec} {b : Rec}
    (hb : b ∈ buildMap E F) : overlay F b = b := by
  unfold overlay
  cases hW : lastWins F b.identifier with
  | none => rfl
  | some g =>
    have h1 : lookupId (buildMap E F) b.identifier = some g := by
      rw [lookupId_buildMap, hW]
    have h2 : lookupId (buildMap E F) b.identifier = some b :=
      lookupId_of_mem_nodup (nodupIds_buildMap E F) hb
    rw [h1] at h2
    cases h2
    rfl

theorem foldl_upsert_self : ∀ (M A : List Rec), nodupIds (A ++ M) →
    M.foldl upsert A = A ++ M
  | [], A, _ => by simp
  | b :: M', A, h => by
    have hids : idsOf (A ++ b :: M') = idsOf A ++ b.identifier :: idsOf M' := by
      unfold idsOf
      rw [List.map_append]
      rfl
    have hdis : b.identifier ∉ idsOf A := by
      have h' := h
      rw [nodupIds, hids, List.nodup_append] at h'
      intro hc
      exact h'.2.2 hc (List.mem_cons_self _ _)
    have hb : hasId A b.identifier = false := by
      cases hq : hasId A b.identifier with
      | true => exact absurd (hasId_iff.mp hq) hdis
      | false => rfl
    rw [List.foldl_cons, upsert_neg hb]
    have hrec := foldl_upsert_self M' (A ++ [b])
      (by rw [List.append_assoc]; exact h)
    rw [hrec, List.append_assoc]
    rfl

/-- **C7.** Reconciliation is idempotent in the fresh batch: merging the same
fresh records into an already reconciled snapshot and pruning and sorting
again gives back the same snapshot. -/
theorem reconcile_idempotent (E F : List Rec) (c : String) :
    reconcile (reconcile E F c) F c = reconcile E F c := by
  have hNodupR1 : nodupIds (reconcile E F c) := nodupIds_reconcile E F c
  have hKeepR1 : ∀ b ∈ reconcile E F c, keep c b = true :=
    fun b hb => (mem_reconcile_iff.mp hb).2
  have hMemM1 : ∀ b ∈ reconcile E F c, b ∈ buildMap E F :=
    fun b hb => (mem_reconcile_iff.mp hb).1
  -- the merged map of the second round
  have step1 : buildMap (reconcile E F c) F = F.foldl upsert (reconcile E F c) := by
    rw [buildMap_eq, foldl_upsert_self (reconcile E F c) [] (by simpa using hNodupR1)]
    rfl
  have step2 : F.foldl upsert (reconcile E F c) =
      (reconcile E F c).map (overlay F) ++
        (newOf (reconcile E F c) F).foldl upsert [] :=
    foldl_upsert_char F (reconcile E F c) hNodupR1
  have step3 : (reconcile E F c).map (overlay F) = reconcile E F c := by
    rw [List.map_congr_left (fun b hb => overlay_mem_buildMap (hMemM1 b hb))]
    exact List.map_id' _
  -- every appended entry is a batch winner that was pruned in round one
  have step4 : ((newOf (reconcile E F c) F).foldl upsert []).filter (keep c) = [] := by
    rw [List.filter_eq_nil_iff]
    intro t ht
    have hNodupT : nodupIds ((newOf (reconcile E F c) F).foldl upsert []) :=
      nodupIds_foldl _ nodupIds_nil
    have htNew : t ∈ newOf (reconcile E F c) F := by
      rcases mem_foldl_upsert _ ht with hc | hc
      · exact absurd hc (List.not_mem_nil t)
      · exact hc
    have htF : t ∈ F := List.mem_of_mem_filter htNew
    have htHas : hasId (reconcile E F c) t.identifier = false := by
      have := (List.mem_filter.mp htNew).2
      cases hq : hasId (reconcile E F c) t.identifier with
      | true => rw [hq] at this; cases this
      | false => rfl
    have hlookT : lookupId ((newOf (reconcile E F c) F).foldl upsert [])
        t.identifier = some t :=
      lookupId_of_mem_nodup hNodupT ht
    have hlastNew : lastWins (newOf (reconcile E F c) F) t.identifier = some t := by
      rw [lookupId_foldl] at hlookT
      cases hW : lastWins (newOf (reconcile E F c) F) t.identifier with
      | none => rw [hW] at hlookT; cases hlookT
      | some g => rw [hW] at hlookT; cases hlookT; rfl
    have hlastF : lastWins F t.identifier = some t := by
      rw [← lastWins_filter (fun g => !hasId (reconcile E F c) g.identifier) F
        t.identifier (fun g hg => by
          show (!hasId (reconcile E F c) g.identifier) = true
          rw [hg, htHas]
          rfl)]
      exact hlastNew
    have htM1 : t ∈ buildMap E F := by
      have : lookupId (buildMap E F) t.identifier = some t := by
        rw [lookupId_buildMap, hlastF]
      exact (lookupId_mem this).1
    intro hkeep
    have htR1 : t ∈ reconcile E F c := mem_reconcile_iff.mpr ⟨htM1, hkeep⟩
    have : hasId (reconcile E F c) t.identifier = true :=
      hasId_iff.mpr (List.mem_map.mpr ⟨t, htR1, rfl⟩)
    rw [htHas] at this
    cases this
  have step6 : sortByDateDesc (reconcile E F c) = reconcile E F c :=
    sortByDateDesc_of_pairwise (sortByDateDesc_pairwise _)
  show sortByDateDesc ((buildMap (reconcile E F c) F).filter (keep c)) = _
  rw [step1, step2, step3, List.filter_append, step4,
    List.filter_eq_self.mpr hKeepR1, List.append_nil, step6]

end ArxivFetcher

namespace ArxivFetcher

/-! ## "N/A" versus ISO dates -/

theorem isoDate_head {d : String} (h : isIsoDate d = true) :
    ∃ y rest, d.toList = y :: rest ∧ isDigitC y = true := by
  unfold isIsoDate at h
  split at h
  case _ y1 y2 y3 y4 d1 m1 m2 d2 a1 a2 heq =>
    refine ⟨y1, _, heq, ?_⟩
    simp only [Bool.and_eq_true] at h
    exact h.1.1.1.1.1.1.1.1.1
  case _ => cases h

theorem iso_le_na {d : String} (h : isIsoDate d = true) :
    strLe d "N/A" = true := by
  rcases isoDate_head h with ⟨y, rest, heq, hy⟩
  simp only [isDigitC, Bool.and_eq_true, decide_eq_true_eq] at hy
  unfold strLe
  rw [heq, show ("N/A").toList = ['N', '/', 'A'] from rfl]
  simp only [clLe]
  rw [if_pos]
  rw [show ('N' : Char).toNat = 78 from rfl]
  omega

theorem na_not_le_iso {d : String} (h : isIsoDate d = true) :
    strLe "N/A" d = false := by
  rcases isoDate_head h with ⟨y, rest, heq, hy⟩
  simp only [isDigitC, Bool.and_eq_true, decide_eq_true_eq] at hy
  unfold strLe
  rw [heq, show ("N/A").toList = ['N', '/', 'A'] from rfl]
  simp only [clLe]
  rw [if_neg, if_pos]
  · rw [show ('N' : Char).toNat = 78 from rfl]; omega
  · rw [show ('N' : Char).toNat = 78 from rfl]; omega

theorem pairwise_reconcile (E F : List Rec) (c : String) :
    (reconcile E F c).Pairwise dateGe :=
  sortByDateDesc_pairwise _

/-! ## Claim theorems: reconciler invariants -/

/-- **C3.** In every reconciled snapshot no two records share an identifier,
and an output record whose identifier occurs in the fresh batch is exactly
the batch's (last) record with that identifier — fresh field values always
win; moreover a fresh record with a batch-unique identifier that survives
pruning does appear in the output. -/
theorem claim_C3_dedup_fresh_wins (E F : List Rec) (c : String) :
    (reconcile E F c).Pairwise (fun a b => a.identifier ≠ b.identifier) ∧
    (∀ r ∈ reconcile E F c, (∃ f ∈ F, f.identifier = r.identifier) →
      lastWins F r.identifier = some r) ∧
    (∀ f ∈ F, (∀ g ∈ F, g.identifier = f.identifier → g = f) →
      keep c f = true → f ∈ reconcile E F c) := by
  refine ⟨?_, ?_, ?_⟩
  · have h := nodupIds_reconcile E F c
    exact List.pairwise_map.mp h
  · rintro r hr ⟨f, hf, hid⟩
    have hsome : (lastWins F r.identifier).isSome := by
      rw [← hid]
      exact lastWins_isSome_of_mem hf
    cases hW : lastWins F r.identifier with
    | none => rw [hW] at hsome; cases hsome
    | some g =>
      have h1 : lookupId (buildMap E F) r.identifier = some g := by
        rw [lookupId_buildMap, hW]
      have h2 : lookupId (buildMap E F) r.identifier = some r :=
        lookupId_of_mem_nodup (nodupIds_buildMap E F) (mem_reconcile_iff.mp hr).1
      rw [h1] at h2
      cases h2
      rfl
  · intro f hf huniq hkeep
    have hsome : (lastWins F f.identifier).isSome := lastWins_isSome_of_mem hf
    cases hW : lastWins F f.identifier with
    | none => rw [hW] at hsome; cases hsome
    | some g =>
      rcases lastWins_mem hW with ⟨hgF, hgid⟩
      have hgf : g = f := huniq g hgF hgid
      have hlook : lookupId (buildMap E F) f.identifier = some f := by
        rw [lookupId_buildMap, hW, hgf]
      exact mem_reconcile_iff.mpr ⟨(lookupId_mem hlook).1, hkeep⟩

/-- **C4.** Every record of a reconciled snapshot has `date >= cutoff`
(lexicographically, as Python compares the strings), and any record whose
date is strictly older than the cutoff is absent from the result. -/
theorem claim_C4_retention (E F : List Rec) (c : String) :
    (∀ r ∈ reconcile E F c, strLe c r.date = true) ∧
    (∀ a : Rec, strLt a.date c = true → a ∉ reconcile E F c) := by
  constructor
  · intro r hr
    have h := (mem_reconcile_iff.mp hr).2
    unfold keep at h
    rw [Bool.and_eq_true] at h
    exact h.2
  · intro a hlt ha
    have h := (mem_reconcile_iff.mp ha).2
    unfold keep at h
    rw [Bool.and_eq_true] at h
    rw [strLt_eq_not_strLe, h.2] at hlt
    cases hlt

/-- **C9.** A record whose date is the sentinel `"N/A"` survives pruning
against every ISO-format cutoff (the comparison is lexicographic and `"N/A"`
is greater than every `YYYY-MM-DD` string), and the date-descending output
order places it before every record carrying a real ISO date. -/
theorem claim_C9_na_date (E F : List Rec) (c : String) (a : Rec)
    (hc : isIsoDate c = true) :
    (a.date = "N/A" → keep c a = true) ∧
    (a.date = "N/A" → a ∈ buildMap E F → a ∈ reconcile E F c) ∧
    (∀ i j : Fin (reconcile E F c).length, i < j →
      isIsoDate ((reconcile E F c).get i).date = true →
      ((reconcile E F c).get j).date ≠ "N/A") := by
  refine ⟨?_, ?_, ?_⟩
  · intro hna
    unfold keep
    rw [hna, iso_le_na hc]
    rfl
  · intro hna hmem
    refine mem_reconcile_iff.mpr ⟨hmem, ?_⟩
    unfold keep
    rw [hna, iso_le_na hc]
    rfl
  · intro i j hij hiso hna
    have hpair := pairwise_reconcile E F c
    have hij' := List.pairwise_iff_get.mp hpair i j hij
    unfold dateGe at hij'
    rw [hna, na_not_le_iso hiso] at hij'
    cases hij'

end ArxivFetcher

namespace ArxivFetcher

/-! ## Harvest loop steps -/

theorem harvestGo_fail (conv : String → String) (cats : List String)
    (transport : Params → Option Page) (fuel : Nat) (p : Params)
    (acc : List Rec) (reqs : List Params) (h : transport p = none) :
    harvestGo conv cats transport (fuel + 1) p acc reqs = ([], reqs ++ [p]) := by
  unfold harvestGo
  rw [h]

theorem harvestGo_error (conv : String → String) (cats : List String)
    (transport : Params → Option Page) (fuel : Nat) (p : Params)
    (acc : List Rec) (reqs : List Params) (pg : Page)
    (h : transport p = some pg) (he : pg.error.isSome = true) :
    harvestGo conv cats transport (fuel + 1) p acc reqs = ([], reqs ++ [p]) := by
  unfold harvestGo
  rw [h]
  simp [he]

theorem harvestGo_page (conv : String → String) (cats : List String)
    (transport : Params → Option Page) (fuel : Nat) (p : Params)
    (acc : List Rec) (reqs : List Params) (pg : Page)
    (h : transport p = some pg) (he : pg.error = none) :
    harvestGo conv cats transport (fuel + 1) p acc reqs =
      match pg.resumptionToken with
      | some t =>
        if t == "" then
          (acc ++ pg.records.filterMap (processRecord conv cats), reqs ++ [p])
        else
          harvestGo conv cats transport fuel (Params.token t)
            (acc ++ pg.records.filterMap (processRecord conv cats)) (reqs ++ [p])
      | none =>
        (acc ++ pg.records.filterMap (processRecord conv cats), reqs ++ [p]) := by
  conv_lhs => rw [harvestGo]
  rw [h]
  simp only [he, Option.isSome_none, Bool.false_eq_true, if_false]

/-! ## Claim theorems: harvest loop and transport -/

/-- **C1 (amended).** When a page fetch fails terminally, or the upstream
reports a protocol error, the harvest loop returns the *empty* list —
whatever had been accumulated from earlier pages is discarded — and it
returns (rather than raising) to the caller. -/
theorem claim_C1_failure_returns_empty (conv : String → String)
    (cats : List String) (transport : Params → Option Page) (fuel : Nat)
    (p : Params) (acc : List Rec) (reqs : List Params)
    (h : transport p = none ∨
      ∃ pg, transport p = some pg ∧ pg.error.isSome = true) :
    harvestGo conv cats transport (fuel + 1) p acc reqs = ([], reqs ++ [p]) := by
  rcases h with h | ⟨pg, h, he⟩
  · exact harvestGo_fail conv cats transport fuel p acc reqs h
  · exact harvestGo_error conv cats transport fuel p acc reqs pg h he

/-- **C6.** For a transport whose first two pages carry a (non-empty)
continuation token and whose third carries none, the harvest loop issues
exactly three requests — the follow-up requests being built solely from the
tokens — and returns the concatenation of the matched records of the three
pages, in page order. -/
theorem claim_C6_pagination (conv : String → String)
    (startStr endStr : String) (cats : List String)
    (transport : Params → Option Page) (fuel : Nat)
    (pg1 pg2 pg3 : Page) (t1 t2 : String)
    (h1 : transport (Params.window startStr endStr (requestSet cats)) = some pg1)
    (e1 : pg1.error = none) (k1 : pg1.resumptionToken = some t1)
    (n1 : (t1 == "") = false)
    (h2 : transport (Params.token t1) = some pg2)
    (e2 : pg2.error = none) (k2 : pg2.resumptionToken = some t2)
    (n2 : (t2 == "") = false)
    (h3 : transport (Params.token t2) = some pg3)
    (e3 : pg3.error = none) (k3 : pg3.resumptionToken = none)
    (hfuel : 3 ≤ fuel) :
    fetch_arxiv_records conv startStr endStr cats transport fuel =
      (pg1.records.filterMap (processRecord conv cats) ++
        pg2.records.filterMap (processRecord conv cats) ++
        pg3.records.filterMap (processRecord conv cats),
       [Params.window startStr endStr (requestSet cats),
        Params.token t1, Params.token t2]) := by
  obtain ⟨k, rfl⟩ : ∃ k, fuel = k + 2 + 1 := ⟨fuel - 3, by omega⟩
  unfold fetch_arxiv_records
  rw [harvestGo_page conv cats transport (k + 2) _ [] [] pg1 h1 e1, k1]
  simp only [n1, Bool.false_eq_true, if_false, List.nil_append]
  rw [show k + 2 = k + 1 + 1 from rfl,
    harvestGo_page conv cats transport (k + 1) _ _ _ pg2 h2 e2, k2]
  simp only [n2, Bool.false_eq_true, if_false, List.nil_append]
  rw [show k + 1 = k + 0 + 1 from rfl,
    harvestGo_page conv cats transport (k + 0) _ _ _ pg3 h3 e3, k3]
  simp

/-- **C2 (amended).** For a single-segment filter code (one without a dot),
the category matcher succeeds exactly when the code occurs as a substring of
some classification-set string of the record. -/
theorem claim_C2_substring (specs : List String) (C : String)
    (h : (pySplit '.' C).length = 1) :
    matchesCode specs C = specs.any (fun s => strContains s C) := by
  unfold matchesCode
  cases hp : pySplit '.' C with
  | nil => rfl
  | cons a l =>
    cases l with
    | nil => rfl
    | cons b l' =>
      cases l' with
      | nil => rw [hp] at h; simp at h
      | cons d l2 => rfl

/-- **C2 (counterexample).** Filter code `"cs"` *does* match a record whose
only classification-set string is `"physics"`, because `"cs"` occurs as a
substring of `"physics"` ("physi**cs**"). -/
theorem claim_C2_counterexample :
    matchesCode ["physics"] "cs" = true ∧
    strContains "physics" "cs" = true ∧
    matchesFilter ["physics"] ["cs"] = true := by
  refine ⟨by decide, by decide, by decide⟩

/-- **C5.** The retrying transport makes at most 3 attempts; the backoff
waits that occur are always an initial segment of 2, 4, 8 seconds
(with 3 attempts at most two waits can happen); and for a transport that
fails twice then succeeds, exactly the two waits 2 s and 4 s occur before
the successful third attempt. -/
theorem claim_C5_retry (stub : Nat → Bool) :
    (retryFetch stub 3).attempts ≤ 3 ∧
    (∃ k, (retryFetch stub 3).waits = [2, 4, 8].take k) ∧
    retryFetch (fun n => decide (2 ≤ n)) 3 = ⟨some 2, [2, 4], 3⟩ := by
  have hcase : retryFetch stub 3 =
      if stub 0 then ⟨some 0, [], 1⟩
      else if stub 1 then ⟨some 1, [2], 2⟩
      else if stub 2 then ⟨some 2, [2, 4], 3⟩
      else ⟨none, [2, 4], 3⟩ := by
    unfold retryFetch
    cases hb0 : stub 0 <;> cases hb1 : stub 1 <;> cases hb2 : stub 2 <;>
      simp [retryGo, hb0, hb1, hb2]
  rw [hcase]
  refine ⟨?_, ?_, by decide⟩
  · cases stub 0 <;> cases stub 1 <;> cases stub 2 <;> decide
  · cases stub 0 <;> cases stub 1 <;> cases stub 2 <;>
      first
        | exact ⟨2, rfl⟩
        | exact ⟨1, rfl⟩
        | exact ⟨0, rfl⟩

theorem splitOnChar_ne_nil (sep : Char) : ∀ l : List Char,
    splitOnChar sep l ≠ []
  | [] => by simp [splitOnChar]
  | c :: rest => by
    simp only [splitOnChar]
    by_cases hc : (c == sep) = true
    · simp [hc]
    · have hc' : (c == sep) = false := by
        cases hq : (c == sep) with
        | true => exact absurd hq hc
        | false => rfl
      simp only [hc', Bool.false_eq_true, if_false]
      cases hr : splitOnChar sep rest <;> simp

/-- The head of the split is the text before the first separator. -/
theorem splitOnChar_head (sep : Char) : ∀ l : List Char,
    (splitOnChar sep l).headD [] = l.takeWhile (fun ch => !(ch == sep))
  | [] => rfl
  | c :: rest => by
    simp only [splitOnChar, List.takeWhile_cons]
    by_cases hc : (c == sep) = true
    · simp [hc]
    · have hc' : (c == sep) = false := by
        cases hq : (c == sep) with
        | true => exact absurd hq hc
        | false => rfl
      simp only [hc', Bool.false_eq_true, if_false, Bool.not_false]
      have ih := splitOnChar_head sep rest
      cases hr : splitOnChar sep rest with
      | nil => exact absurd hr (splitOnChar_ne_nil sep rest)
      | cons hd tl =>
        rw [hr] at ih
        simp only [List.headD_cons] at ih
        simp [ih]

/-- **C10.** The `set` parameter of the initial request is derived solely
from the first filter code — it is the code's text before its first dot —
and does not depend on the other codes in the list; in particular
`["cs.AI", "math.ST"]` requests only the `cs` set. -/
theorem claim_C10_set_param (c : String) (rest rest' : List String) :
    requestSet (c :: rest) =
      some (String.mk (c.toList.takeWhile (fun ch => !(ch == '.')))) ∧
    requestSet (c :: rest) = requestSet (c :: rest') ∧
    requestSet ["cs.AI", "math.ST"] = some "cs" := by
  refine ⟨?_, rfl, by decide⟩
  show some (String.mk ((splitOnChar '.' c.toList).headD [])) = _
  rw [splitOnChar_head]

/-- **C8.** A non-deleted record that has a metadata block and passes the
category filter is *always* emitted, whatever its metadata field lists hold:
each field is extracted independently (first value, else the sentinel
`"N/A"`; list fields are passed through, so an absent list field becomes the
empty list), and a missing field never causes the record to be dropped.
An empty field list yields exactly the sentinel. -/
theorem claim_C8_missing_fields (conv : String → String) (cats : List String)
    (r : RawRecord) (hdel : r.deleted = false) (hmeta : r.hasMetadata = true)
    (hfilter : cats = [] ∨ matchesFilter r.setSpecs cats = true) :
    processRecord conv cats r = some {
      title := conv (get_first r.titles)
      creators := r.creators
      subjects := r.subjects
      categories := categories_cleaned r.setSpecs
      description := conv (get_first r.descriptions)
      date := get_first r.dates
      announcement_date := r.datestamp
      identifier := get_first r.identifiers } ∧
    get_first [] = "N/A" := by
  refine ⟨?_, rfl⟩
  unfold processRecord
  rw [hdel, hmeta]
  rcases hfilter with hc | hm
  · subst hc
    simp
  · rw [hm]
    simp

end ArxivFetcher

namespace ArxivFetcher

/-! ## Concrete data for counterexamples and witnesses -/

/-- A plain raw record that survives every check. -/
def demoRaw : RawRecord :=
  ⟨false, ["a:cs:AI"], "2024-01-02", true, ["T"], ["A"], ["S"], ["D"],
    ["2024-01-01"], ["oai:1"]⟩

/-- A raw record with every metadata field list empty. -/
def emptyRaw : RawRecord :=
  ⟨false, [], "2024-01-02", true, [], [], [], [], [], []⟩

/-- The normalized form of `demoRaw` under the identity converter. -/
def demoRec : Rec :=
  ⟨"T", ["A"], ["S"], ["cs.AI"], "D", "2024-01-01", "2024-01-02", "oai:1"⟩

/-- Page holding one matching record plus a continuation token. -/
def failPage : Page := ⟨none, [demoRaw], some "t"⟩

/-- A transport that answers the initial window request with `failPage` and
fails terminally on every follow-up request. -/
def failTransport : Params → Option Page
  | Params.window _ _ _ => some failPage
  | Params.token _ => none

/-- **C1 (counterexample).** With a transport whose page 1 succeeds (and
yields one matched record together with a continuation token) and whose
page 2 fetch fails terminally, the harvest function returns the empty list,
*not* the partially accumulated list from page 1. -/
theorem claim_C1_counterexample :
    (fetch_arxiv_records id "2024-01-01" "2024-01-15" [] failTransport 5).1 = [] ∧
    failPage.records.filterMap (processRecord id []) = [demoRec] ∧
    (fetch_arxiv_records id "2024-01-01" "2024-01-15" [] failTransport 5).1 ≠
      failPage.records.filterMap (processRecord id []) := by
  refine ⟨by decide, by decide, by decide⟩

theorem claim_C1_witness :
    harvestGo id [] failTransport (4 + 1) (Params.token "t") [demoRec]
      [Params.window "2024-01-01" "2024-01-15" none] =
      ([], [Params.window "2024-01-01" "2024-01-15" none, Params.token "t"]) :=
  claim_C1_failure_returns_empty id [] failTransport 4 (Params.token "t")
    [demoRec] [Params.window "2024-01-01" "2024-01-15" none] (Or.inl rfl)

theorem claim_C2_witness :
    (pySplit '.' "cs").length = 1 ∧
    matchesCode ["xcs y"] "cs" = ["xcs y"].any (fun s => strContains s "cs") :=
  ⟨by decide, claim_C2_substring ["xcs y"] "cs" (by decide)⟩

/-- Existing and fresh record sharing the identifier `"x"` but with
different field values. -/
def exOldX : Rec :=
  ⟨"old title", [], [], [], "old abstract", "2024-01-06", "2024-01-06", "x"⟩

def exNewX : Rec :=
  ⟨"new title", [], [], [], "new abstract", "2024-01-07", "2024-01-07", "x"⟩

theorem claim_C3_witness :
    lastWins [exNewX] "x" = some exNewX ∧
    exNewX ∈ reconcile [exOldX] [exNewX] "2024-01-05" := by
  have h := claim_C3_dedup_fresh_wins [exOldX] [exNewX] "2024-01-05"
  constructor
  · exact h.2.1 exNewX (by decide) ⟨exNewX, by decide, rfl⟩
  · exact h.2.2 exNewX (by decide) (by decide) (by decide)

/-- A record strictly older than the pruning cutoff. -/
def exOld : Rec := ⟨"t", [], [], [], "d", "2024-01-01", "2024-01-01", "old"⟩

theorem claim_C4_witness :
    strLe "2024-01-05" exNewX.date = true ∧
    exOld ∉ reconcile [] [exOld] "2024-01-05" :=
  ⟨(claim_C4_retention [] [exNewX] "2024-01-05").1 exNewX (by decide),
   (claim_C4_retention [] [exOld] "2024-01-05").2 exOld (by decide)⟩

def pageOne : Page := ⟨none, [demoRaw], some "t1"⟩

def pageTwo : Page := ⟨none, [emptyRaw], some "t2"⟩

def pageThree : Page := ⟨none, [demoRaw], none⟩

/-- A transport serving three synthetic pages: the first two return
continuation tokens, the third none. -/
def demoTransport : Params → Option Page
  | Params.window _ _ _ => some pageOne
  | Params.token "t1" => some pageTwo
  | Params.token "t2" => some pageThree
  | Params.token _ => none

theorem claim_C6_witness :
    fetch_arxiv_records id "2024-01-01" "2024-01-15" [] demoTransport 5 =
      (pageOne.records.filterMap (processRecord id []) ++
        pageTwo.records.filterMap (processRecord id []) ++
        pageThree.records.filterMap (processRecord id []),
       [Params.window "2024-01-01" "2024-01-15" (requestSet []),
        Params.token "t1", Params.token "t2"]) :=
  claim_C6_pagination id "2024-01-01" "2024-01-15" [] demoTransport 5
    pageOne pageTwo pageThree "t1" "t2" rfl rfl rfl (by decide) rfl rfl rfl
    (by decide) rfl rfl rfl (by omega)

theorem claim_C8_witness :
    processRecord id [] emptyRaw =
      some ⟨"N/A", [], [], [], "N/A", "N/A", "2024-01-02", "N/A"⟩ :=
  (claim_C8_missing_fields id [] emptyRaw rfl rfl (Or.inl rfl)).1

/-- A harvested record whose date field is the sentinel. -/
def exNA : Rec := ⟨"t", [], [], [], "d", "N/A", "2024-01-02", "na"⟩

theorem claim_C9_witness :
    keep "2024-01-05" exNA = true ∧
    exNA ∈ reconcile [] [exNA] "2024-01-05" := by
  have h := claim_C9_na_date [] [exNA] "2024-01-05" exNA (by decide)
  exact ⟨h.1 rfl, h.2.1 rfl (by decide)⟩

end ArxivFetcher
